import Mathlib

/-!
Verification of the Cool Papers extraction engine (`parse_coolpapers.py`).

The development shallowly embeds the extraction pipeline: free-text author
splitting, order-preserving deduplication, the link classifier, the four
structural parsers, the candidate aggregator/merger, the ranker and the
fallback block scanner.  HTML traversal (CSS selection, `get_text`) is the
external markup library; its results appear as plain string fields on the
element models, with `get_text(" ", strip=True)` modelled by trimming.
All definitions are structural, hence executable and kernel-reducible.
-/

/-- Python whitespace test used by `\s` and `str.strip()` (ASCII subset). -/
def isWs (c : Char) : Bool :=
  c = ' ' || c = '\t' || c = '\n' || c = '\r'

/-- Characters stripped by `.strip(" ,;")` in `split_authors`. -/
def isStripSet (c : Char) : Bool :=
  c = ' ' || c = ',' || c = ';'

/-- Drop characters satisfying `p` from both ends of a character list. -/
def stripBoth (p : Char → Bool) (cs : List Char) : List Char :=
  ((cs.dropWhile p).reverse.dropWhile p).reverse

/-- Model of Python `str.strip()`: trim whitespace from both ends. -/
def pyStrip (s : String) : String :=
  String.mk (stripBoth isWs s.data)

/-- Model of `str.lower()` (ASCII case folding). -/
def lowerStr (s : String) : String :=
  String.mk (s.data.map Char.toLower)

/-- Helper for `collapseWs`: `pend` records a pending whitespace run. -/
def collapseWsAux : List Char → Bool → List Char
  | [], pend => if pend then [' '] else []
  | c :: rest, pend =>
    if isWs c then collapseWsAux rest true
    else if pend then ' ' :: c :: collapseWsAux rest false
    else c :: collapseWsAux rest false

/-- Model of `re.sub(r"\s+", " ", text)`: each whitespace run becomes one space. -/
def collapseWs (cs : List Char) : List Char :=
  collapseWsAux cs false

/-- Does `pat` occur at the start of `cs`? -/
def leadChars : List Char → List Char → Bool
  | [], _ => true
  | _ :: _, [] => false
  | a :: as, b :: bs => a = b && leadChars as bs

/-- Helper for `hasSub`: does `pat` occur anywhere in the list? -/
def hasSubChars (pat : List Char) : List Char → Bool
  | [] => leadChars pat []
  | c :: rest => leadChars pat (c :: rest) || hasSubChars pat rest

/-- Model of Python `pat in s` substring membership. -/
def hasSub (s pat : String) : Bool :=
  hasSubChars pat.data s.data

/-- Split a whitespace-collapsed, end-stripped author string at the separators
of `re.split(r"\s*(?:,|;| and | & )\s*", cleaned)`.  Because the input has
been whitespace-collapsed first, at most one space can follow a `,`/`;`
separator, which the patterns absorb exactly as the regex's trailing `\s*`
does. -/
def splitSeps : List Char → List Char → List (List Char)
  | [], acc => [acc.reverse]
  | ',' :: ' ' :: rest, acc => acc.reverse :: splitSeps rest []
  | ',' :: rest, acc => acc.reverse :: splitSeps rest []
  | ';' :: ' ' :: rest, acc => acc.reverse :: splitSeps rest []
  | ';' :: rest, acc => acc.reverse :: splitSeps rest []
  | ' ' :: 'a' :: 'n' :: 'd' :: ' ' :: rest, acc => acc.reverse :: splitSeps rest []
  | ' ' :: '&' :: ' ' :: rest, acc => acc.reverse :: splitSeps rest []
  | c :: rest, acc => splitSeps rest (c :: acc)

/-- Embedding of `split_authors`: collapse whitespace, strip `" ,;"` from the
ends, return `[]` when nothing is left, otherwise split at author
separators, trim each part and drop empty parts. -/
def split_authors (text : String) : List String :=
  let cleaned := stripBoth isStripSet (collapseWs text.data)
  if cleaned = [] then []
  else ((splitSeps cleaned []).map (fun cs => String.mk (stripBoth isWs cs))).filter
    (fun p => p ≠ "")

/-- Helper for `dedupe_preserve_order` carrying the `seen` set. -/
def dedupeGo : List String → List String → List String
  | [], _ => []
  | x :: rest, seen =>
    if x = "" ∨ x ∈ seen then dedupeGo rest seen
    else x :: dedupeGo rest (x :: seen)

/-- Embedding of `dedupe_preserve_order`: drop empty strings and repeats,
keeping the first occurrence of each item. -/
def dedupe_preserve_order (items : List String) : List String :=
  dedupeGo items []

/-- Accumulate the numeric value of a digit run. -/
def digitsToNat : List Char → Nat → Nat
  | [], acc => acc
  | c :: rest, acc => digitsToNat rest (acc * 10 + (c.toNat - 48))

/-- First maximal digit run in a character list, as a number. -/
def firstNat : List Char → Option Nat
  | [] => none
  | c :: rest =>
    if c.isDigit then some (digitsToNat ((c :: rest).takeWhile Char.isDigit) 0)
    else firstNat rest

/-- Embedding of `to_int`: `None`/empty input gives `None`; otherwise the
first run of digits found by `re.search(r"\d+", value)`, if any. -/
def to_int (value : Option String) : Option Nat :=
  match value with
  | none => none
  | some s => if s = "" then none else firstNat s.data

/-- Strip a leading `\s*#\s*\d+\s*` index token, as in
`re.sub(r"^\s*#\s*\d+\s*", "", text)`; no change when the pattern is absent. -/
def stripIndexTok (cs : List Char) : List Char :=
  match cs.dropWhile isWs with
  | '#' :: rest =>
    let r2 := rest.dropWhile isWs
    if (r2.takeWhile Char.isDigit) = [] then cs
    else (r2.dropWhile Char.isDigit).dropWhile isWs
  | _ => cs

/-- Embedding of `clean_raw_excerpt`. -/
def clean_raw_excerpt (text : String) : String :=
  pyStrip (String.mk (stripIndexTok text.data))

/-- Model of `" ".join(parts)`. -/
def joinSp : List String → String
  | [] => ""
  | [s] => s
  | s :: rest => s ++ " " ++ joinSp rest

/-- Model of `text.split(",")`. -/
def splitComma : List Char → List Char → List (List Char)
  | [], acc => [acc.reverse]
  | ',' :: rest, acc => acc.reverse :: splitComma rest []
  | c :: rest, acc => splitComma rest (c :: acc)

/-- Helper for `replaceAllSub`: `skip` counts characters of a match still to
be consumed without emission. -/
def replaceGo (pat rep : List Char) : List Char → Nat → List Char
  | [], _ => []
  | _ :: rest, skip + 1 => replaceGo pat rep rest skip
  | c :: rest, 0 =>
    if pat ≠ [] ∧ leadChars pat (c :: rest) then
      rep ++ replaceGo pat rep rest (pat.length - 1)
    else c :: replaceGo pat rep rest 0

/-- Model of Python `s.replace(old, new)` (left-to-right, non-overlapping);
the empty pattern leaves the string unchanged (unreachable in the pipeline,
where the replaced title is non-empty). -/
def replaceAll (s pat rep : String) : String :=
  String.mk (replaceGo pat.data rep.data s.data 0)

/-- Python-dict lookup on an association list (first binding wins). -/
def dictGet {α : Type} (m : List (String × α)) (k : String) : Option α :=
  match m with
  | [] => none
  | (k', v) :: rest => if k' = k then some v else dictGet rest k

/-- Python-dict write on an association list: replace the first binding of
`k` in place, or append a new binding at the end (insertion order). -/
def dictSet {α : Type} (m : List (String × α)) (k : String) (v : α) :
    List (String × α) :=
  match m with
  | [] => [(k, v)]
  | (k', v') :: rest => if k' = k then (k, v) :: rest else (k', v') :: dictSet rest k v

/-- Append a URL to a per-kind list only when not already present
(`if url not in dest: dest.append(url)`). -/
def addUrl (dest : List String) (u : String) : List String :=
  if u ∈ dest then dest else dest ++ [u]

/-- Model of `links.setdefault(kind, [])` followed by a guarded append of `u`. -/
def layerUrl (links : List (String × List String)) (k : String) (u : String) :
    List (String × List String) :=
  dictSet links k (addUrl ((dictGet links k).getD []) u)

/-- The canonical paper record (`PaperRecord` in the spec): one candidate or
merged entry of the extraction pipeline. -/
structure Entry where
  paper_id : Option String
  index : Option Nat
  title : String
  authors : List String
  subjects : List String
  keywords : List String
  summary : Option String
  session : Option String
  time : Option String
  links : List (String × List String)
  scores : Option (List (String × Option Nat))
  raw_excerpt : String
deriving DecidableEq, Repr

/-- Python `a or b` on optional strings: an existing non-empty string wins,
`None` and `""` fall through to `b`. -/
def pyOrStr (a b : Option String) : Option String :=
  match a with
  | some s => if s = "" then b else some s
  | none => b

/-- Python `a or b` on optional numbers: `None` and `0` fall through to `b`. -/
def pyOrNat (a b : Option Nat) : Option Nat :=
  match a with
  | some n => if n = 0 then b else some n
  | none => b

/-- Score merging of `merge_entries`: a key is written only when its current
value is absent or null and the incoming value is non-null. -/
def mergeScores (cur newScores : List (String × Option Nat)) :
    List (String × Option Nat) :=
  newScores.foldl
    (fun m kv =>
      match dictGet m kv.1, kv.2 with
      | none, some v => dictSet m kv.1 (some v)
      | some none, some v => dictSet m kv.1 (some v)
      | _, _ => m)
    cur

/-- Link merging of `merge_entries`: per kind, union URL lists preserving
existing order, appending unseen URLs. -/
def mergeLinks (cur newLinks : List (String × List String)) :
    List (String × List String) :=
  newLinks.foldl
    (fun m kv => dictSet m kv.1 (kv.2.foldl addUrl ((dictGet m kv.1).getD [])))
    cur

/-- Embedding of `merge_entries`: union/dedupe the list fields, gap-fill the
scores, and let the first truthy value win for the scalar fields. -/
def merge_entries (current incoming : Entry) : Entry :=
  let ms := mergeScores (current.scores.getD []) (incoming.scores.getD [])
  { current with
    authors := dedupe_preserve_order (current.authors ++ incoming.authors)
    subjects := dedupe_preserve_order (current.subjects ++ incoming.subjects)
    keywords := dedupe_preserve_order (current.keywords ++ incoming.keywords)
    links := mergeLinks current.links incoming.links
    scores := if ms = [] then none else some ms
    paper_id := pyOrStr current.paper_id incoming.paper_id
    index := pyOrNat current.index incoming.index
    session := pyOrStr current.session incoming.session
    time := pyOrStr current.time incoming.time
    summary := pyOrStr current.summary incoming.summary
    raw_excerpt :=
      if current.raw_excerpt = "" then incoming.raw_excerpt else current.raw_excerpt }

/-- An anchor-like element as seen by `extract_links`: the four URL-carrying
attributes, the class attribute list and the visible label text. -/
structure Anchor where
  href : Option String
  dataAttr : Option String
  dataHref : Option String
  dataUrl : Option String
  classes : List String
  label : String
deriving DecidableEq, Repr

/-- First populated URL attribute in the fixed order
`("href", "data", "data-href", "data-url")`, stripped; an attribute counts
only when its stripped value is non-empty. -/
def pickAttr : List (Option String) → Option String
  | [] => none
  | none :: rest => pickAttr rest
  | some c :: rest => if pyStrip c = "" then pickAttr rest else some (pyStrip c)

/-- Modelled from `urllib.parse.urljoin` (external library): URLs that
already carry a scheme are kept, otherwise the base is prepended.  No claim
depends on the internal resolution rules, only on the result being non-empty
for non-empty input. -/
def urljoin (base : Option String) (u : String) : String :=
  match base with
  | none => u
  | some b => if hasSub u "://" then u else b ++ u

/-- The classification chain of `extract_links`, in source order:
pdf, supp, arxiv, video, slides, venue, detail, else the generic "link". -/
def classify (classes hrefL labelL : String) : String :=
  if hasSub classes "title-pdf" || hasSub hrefL "pdf" || leadChars "[pdf".data labelL.data then "pdf"
  else if hasSub classes "supp" || hasSub hrefL "supp" || hasSub labelL "supp" then "supp"
  else if hasSub hrefL "arxiv" then "arxiv"
  else if hasSub hrefL "video" || hasSub hrefL "youtube" then "video"
  else if hasSub hrefL "slides" || hasSub labelL "slides" then "slides"
  else if hasSub classes "title-link" || hasSub hrefL "venue" then "venue"
  else if hasSub hrefL "paper.html" then "detail"
  else "link"

/-- Joined, lower-cased class attribute of an anchor. -/
def anchorClasses (a : Anchor) : String :=
  lowerStr (joinSp a.classes)

/-- One `extract_links` loop iteration for a single anchor. -/
def linkStep (base : Option String) (links : List (String × List String))
    (a : Anchor) : List (String × List String) :=
  match pickAttr [a.href, a.dataAttr, a.dataHref, a.dataUrl] with
  | none => links
  | some u0 =>
    let url := urljoin base u0
    let classes := anchorClasses a
    if hasSub classes "author" then links
    else layerUrl links (classify classes (lowerStr url) (lowerStr (pyStrip a.label))) url

/-- Embedding of `extract_links` over the anchors of a subtree. -/
def extract_links (anchors : List Anchor) (base : Option String) :
    List (String × List String) :=
  anchors.foldl (linkStep base) []

/-- A title element of a panel card: its text and, for anchors, the `href`. -/
structure TitleTag where
  text : String
  href : Option String
deriving DecidableEq, Repr

/-- The `a.title-pdf` element of a panel card. -/
structure PdfTag where
  dataAttr : Option String
  href : Option String
  text : String
  supText : Option String
deriving DecidableEq, Repr

/-- A `div.panel.paper` card as the Panel-Card Parser reads it. -/
structure Panel where
  id : Option String
  titleLink : Option TitleTag
  heading : Option TitleTag
  authorTexts : List String
  summaryText : Option String
  subjectTexts : List String
  keywordsAttr : Option String
  anchors : List Anchor
  pdfTag : Option PdfTag
  detailHref : Option String
  kimiSup : Option String
  indexText : Option String
  fullText : String
deriving DecidableEq, Repr

/-- Layer an optional special-cased URL into a link mapping under kind `k`:
skip absent or falsy URLs, resolve against the base, append if unseen
(`if url: url = urljoin(...); links.setdefault(kind, []); ...`). -/
def layerOpt (m : List (String × List String)) (k : String) (base : Option String)
    (uo : Option String) : List (String × List String) :=
  match uo with
  | none => m
  | some u => if u = "" then m else layerUrl m k (urljoin base u)

/-- The PDF URL of a panel card: `pdf_tag.get("data") or pdf_tag.get("href")`. -/
def panelPdfUrl (p : Panel) : Option String :=
  match p.pdfTag with
  | none => none
  | some t => pyOrStr t.dataAttr t.href

/-- The PDF score of a panel card: from the superscript element when
present, else from the link's own visible text. -/
def panelPdfScore (p : Panel) : Option Nat :=
  match p.pdfTag with
  | none => none
  | some t =>
    match t.supText with
    | some s => to_int (some (pyStrip s))
    | none => to_int (some (pyStrip t.text))

/-- The kimi score of a panel card, read from the badge's superscript. -/
def panelKimiScore (p : Panel) : Option Nat :=
  match p.kimiSup with
  | none => none
  | some s => to_int (some (pyStrip s))

/-- The link mapping of a panel card: the Link Classifier's output with the
special-cased pdf, detail and venue links layered in, in source order. -/
def panelLinks (base : Option String) (p : Panel) (ttag : TitleTag) :
    List (String × List String) :=
  layerOpt
    (layerOpt
      (layerOpt (extract_links p.anchors base) "pdf" base (panelPdfUrl p))
      "detail" base p.detailHref)
    "venue" base ttag.href

/-- The keyword list of a panel card: the card-level attribute split at
commas, trimmed, cleaned and deduplicated. -/
def panelKeywords (p : Panel) : List String :=
  dedupe_preserve_order
    (((splitComma (p.keywordsAttr.getD "").data []).map
      (fun cs => String.mk (stripBoth isWs cs))).filter (fun kw => kw ≠ ""))

/-- Candidate construction for one panel card (`parse_coolpapers_panels`
loop body); `none` when the card is skipped. -/
def panelEntry (base : Option String) (p : Panel) : Option Entry :=
  match p.titleLink.orElse (fun _ => p.heading) with
  | none => none
  | some ttag =>
    if pyStrip ttag.text = "" then none
    else
      some
        { paper_id := p.id
          index := match p.indexText with
            | none => none
            | some s => to_int (some (pyStrip s))
          title := pyStrip ttag.text
          authors := dedupe_preserve_order (p.authorTexts.map pyStrip)
          subjects := dedupe_preserve_order (p.subjectTexts.map pyStrip)
          keywords := panelKeywords p
          summary := p.summaryText.map pyStrip
          session := none
          time := none
          links := panelLinks base p ttag
          scores := some [("pdf", panelPdfScore p), ("kimi", panelKimiScore p)]
          raw_excerpt := clean_raw_excerpt (pyStrip p.fullText) }

/-- Embedding of `parse_coolpapers_panels` over the document's panel cards. -/
def parse_coolpapers_panels (base : Option String) (panels : List Panel) :
    List Entry :=
  panels.filterMap (panelEntry base)

/-- A `div.maincard` element as the Main-Card Parser reads it. -/
structure Maincard where
  id : Option String
  bodyText : Option String
  footerText : Option String
  headerText : Option String
  anchors : List Anchor
  fullText : String
deriving DecidableEq, Repr

/-- Candidate construction for one main card (`parse_maincards` loop body). -/
def maincardEntry (base : Option String) (c : Maincard) : Option Entry :=
  match c.bodyText with
  | none => none
  | some rawTitle =>
    let title := pyStrip rawTitle
    if title = "" then none
    else
      let authorsText := match c.footerText with
        | some f => pyStrip f
        | none => title
      some
        { paper_id := c.id
          index := none
          title := title
          authors := split_authors authorsText
          subjects := []
          keywords := []
          summary := none
          session := c.headerText.map pyStrip
          time := none
          links := extract_links c.anchors base
          scores := some []
          raw_excerpt := clean_raw_excerpt (pyStrip c.fullText) }

/-- Embedding of `parse_maincards`. -/
def parse_maincards (base : Option String) (cards : List Maincard) : List Entry :=
  cards.filterMap (maincardEntry base)

/-- A `dd` sibling element in a definition list. -/
structure DdTag where
  classes : List String
  text : String
deriving DecidableEq, Repr

/-- A `dt.ptitle` element with its chain of following `dd` siblings and the
anchors of its parent container. -/
structure Ptitle where
  id : Option String
  titleText : String
  dds : List DdTag
  parentAnchors : List Anchor
deriving DecidableEq, Repr

/-- The author-search loop of `parse_ptitles`, carrying the running
`authors` value exactly as the source does: returns the parsed authors and
the `dd` element at which the loop stopped (for the raw excerpt). -/
def ptitleLoop (authors : List String) : List DdTag → List String × Option DdTag
  | [] => (authors, none)
  | dd :: rest =>
    let classes := joinSp dd.classes
    if hasSub classes "authors" || hasSub classes "pauthors" || authors.isEmpty then
      (split_authors (pyStrip dd.text), some dd)
    else ptitleLoop authors rest

/-- Candidate construction for one `dt.ptitle` (`parse_ptitles` loop body). -/
def ptitleEntry (base : Option String) (pt : Ptitle) : Option Entry :=
  let title := pyStrip pt.titleText
  if title = "" then none
  else
    let res := ptitleLoop [] pt.dds
    some
      { paper_id := pt.id
        index := none
        title := title
        authors := res.1
        subjects := []
        keywords := []
        summary := none
        session := none
        time := none
        links := extract_links pt.parentAnchors base
        scores := some []
        raw_excerpt := clean_raw_excerpt
          (joinSp (([pyStrip pt.titleText] ++
            (match res.2 with
             | some dd => [pyStrip dd.text]
             | none => [])).filter (fun s => s ≠ ""))) }

/-- Embedding of `parse_ptitles`. -/
def parse_ptitles (base : Option String) (pts : List Ptitle) : List Entry :=
  pts.filterMap (ptitleEntry base)

/-- A generically-named paper container as the Generic Fallback Parser reads
it: `headingText` is the first heading found inside (if any), `titleByClass`
the first title-like classed element, `authorsByClass` the first author-like
classed element. -/
structure GenericTag where
  id : Option String
  classes : List String
  headingText : Option String
  titleByClass : Option String
  authorsByClass : Option String
  anchors : List Anchor
  fullText : String
deriving DecidableEq, Repr

/-- Candidate construction for one generic container (`parse_generic_papers`
loop body); containers that also match the panel-card selector are skipped. -/
def genericEntry (base : Option String) (g : GenericTag) : Option Entry :=
  if "panel" ∈ g.classes ∧ "paper" ∈ g.classes then none
  else
    match g.headingText.orElse (fun _ => g.titleByClass) with
    | none => none
    | some raw =>
      let title := pyStrip raw
      if title = "" then none
      else
        some
          { paper_id := g.id
            index := none
            title := title
            authors := split_authors
              (match g.authorsByClass with
               | some t => pyStrip t
               | none => "")
            subjects := []
            keywords := []
            summary := none
            session := none
            time := none
            links := extract_links g.anchors base
            scores := some []
            raw_excerpt := clean_raw_excerpt (pyStrip g.fullText) }

/-- Embedding of `parse_generic_papers`. -/
def parse_generic_papers (base : Option String) (tags : List GenericTag) :
    List Entry :=
  tags.filterMap (genericEntry base)

/-- A generic container examined by the Fallback Block Scanner: its anchors,
the first heading inside (if any) and the whole-block text. -/
structure Block where
  id : Option String
  anchors : List Anchor
  headingText : Option String
  fullText : String
deriving DecidableEq, Repr

/-- A document as the pipeline reads it: the optional in-document base
reference and, per structural parser, the elements its selectors return. -/
structure Doc where
  baseHref : Option String
  panels : List Panel
  maincards : List Maincard
  ptitles : List Ptitle
  generics : List GenericTag
  blocks : List Block
deriving DecidableEq, Repr

/-- Base-URL Resolver: `base_tag["href"] if base_tag and base_tag.get("href")
else None` — an empty `href` is falsy and yields no base URL. -/
def docBase (d : Doc) : Option String :=
  match d.baseHref with
  | none => none
  | some s => if s = "" then none else some s

/-- The dedup key: `(item.get("title") or "").strip().lower()`. -/
def normKey (t : String) : String :=
  lowerStr (pyStrip t)

/-- One step of the aggregation loop of `extract_papers`: candidates with an
empty key are dropped, a colliding key is merged, a fresh key is appended. -/
def aggStep (m : List (String × Entry)) (item : Entry) : List (String × Entry) :=
  if normKey item.title = "" then m
  else
    match dictGet m (normKey item.title) with
    | some cur => dictSet m (normKey item.title) (merge_entries cur item)
    | none => m ++ [(normKey item.title, item)]

/-- The Candidate Aggregator: fold all candidates into the `deduped` map. -/
def aggregate (candidates : List Entry) : List (String × Entry) :=
  candidates.foldl aggStep []

/-- Stable insertion of `x` into a sorted list: `x` goes before the first
element `y` with `le x y`. -/
def insertSorted {α : Type} (le : α → α → Bool) (x : α) : List α → List α
  | [] => [x]
  | y :: ys => if le x y then x :: y :: ys else y :: insertSorted le x ys

/-- Stable insertion sort; agrees with Python's stable `sorted` for a total
preorder `le`. -/
def sortBy {α : Type} (le : α → α → Bool) : List α → List α
  | [] => []
  | x :: xs => insertSorted le x (sortBy le xs)

/-- Lexicographic comparison of two character lists by code point, the
comparison Python uses on strings. -/
def charListLe : List Char → List Char → Bool
  | [], _ => true
  | _ :: _, [] => false
  | a :: as, b :: bs =>
    decide (a.toNat < b.toNat) || (decide (a.toNat = b.toNat) && charListLe as bs)

/-- First ranking key component: `x.get("index") is None` as 0/1. -/
def rankFlag (e : Entry) : Nat :=
  if e.index.isSome then 0 else 1

/-- Second ranking key component: `x.get("index") or 0`. -/
def rankIdx (e : Entry) : Nat :=
  e.index.getD 0

/-- Third ranking key component: `x.get("title", "").lower()`. -/
def rankTitle (e : Entry) : List Char :=
  (lowerStr e.title).data

/-- The ranking key comparison when some record has an index: the tuple
`(index is None, index or 0, title.lower())` compared lexicographically. -/
def rankLe (a b : Entry) : Bool :=
  decide (rankFlag a < rankFlag b) ||
    (decide (rankFlag a = rankFlag b) &&
      (decide (rankIdx a < rankIdx b) ||
        (decide (rankIdx a = rankIdx b) && charListLe (rankTitle a) (rankTitle b))))

/-- The pure-title ranking key comparison: `x["title"].lower()`. -/
def titleLe (a b : Entry) : Bool :=
  charListLe (rankTitle a) (rankTitle b)

/-- The Ranker: sort by the 3-key tuple when any record has an index,
otherwise by lower-cased title. -/
def rankPapers (papers : List Entry) : List Entry :=
  if papers.any (fun p => p.index.isSome) then sortBy rankLe papers
  else sortBy titleLe papers

/-- Minimal record built by the Fallback Block Scanner for one block. -/
def blockEntry (b : Block) (title : String) (links : List (String × List String)) :
    Entry :=
  { paper_id := b.id
    index := none
    title := title
    authors := split_authors (replaceAll (pyStrip b.fullText) title "")
    subjects := []
    keywords := []
    summary := none
    session := none
    time := none
    links := links
    scores := some []
    raw_excerpt := clean_raw_excerpt (pyStrip b.fullText) }

/-- One step of the fallback scan: a block qualifies when the Link Classifier
finds at least one link and a heading with non-empty text is present; the
first block per lower-cased title wins. -/
def fallbackStep (base : Option String) (dd : List (String × Entry)) (b : Block) :
    List (String × Entry) :=
  let links := extract_links b.anchors base
  if links = [] then dd
  else
    match b.headingText with
    | none => dd
    | some raw =>
      let title := pyStrip raw
      if title = "" then dd
      else
        let key := lowerStr title
        if (dictGet dd key).isSome then dd
        else dd ++ [(key, blockEntry b title links)]

/-- The Fallback Block Scanner, continuing to fill the `deduped` map. -/
def fallbackScan (base : Option String) (dd : List (String × Entry))
    (blocks : List Block) : List (String × Entry) :=
  blocks.foldl (fallbackStep base) dd

/-- Collect the candidates of the parser passes, dropping any pass that
failed: the orchestrator's per-parser `try`/`except` of `extract_papers`. -/
def runParsers (results : List (Except String (List Entry))) : List Entry :=
  results.foldl
    (fun acc r =>
      match r with
      | Except.ok es => acc ++ es
      | Except.error _ => acc)
    []

/-- The tail of `extract_papers` after candidate collection: aggregate,
rank when non-empty, otherwise run the fallback block scan. -/
def extractFrom (base : Option String) (results : List (Except String (List Entry)))
    (blocks : List Block) : List Entry :=
  let deduped := aggregate (runParsers results)
  let papers := deduped.map Prod.snd
  if papers.isEmpty then
    sortBy titleLe ((fallbackScan base deduped blocks).map Prod.snd)
  else rankPapers papers

/-- The four structural parser passes of `extract_papers`; each pass is
total in this embedding, so each result is `ok` (a raising parser is
modelled by an `error` result in `extractFrom`). -/
def parserResults (d : Doc) : List (Except String (List Entry)) :=
  [Except.ok (parse_coolpapers_panels (docBase d) d.panels),
   Except.ok (parse_maincards (docBase d) d.maincards),
   Except.ok (parse_ptitles (docBase d) d.ptitles),
   Except.ok (parse_generic_papers (docBase d) d.generics)]

/-- Embedding of `extract_papers`: the full pipeline on one document. -/
def extract_papers (d : Doc) : List Entry :=
  extractFrom (docBase d) (parserResults d) d.blocks

/-- An entry with every field empty or absent, for building test records. -/
def baseEntry : Entry :=
  { paper_id := none
    index := none
    title := ""
    authors := []
    subjects := []
    keywords := []
    summary := none
    session := none
    time := none
    links := []
    scores := none
    raw_excerpt := "" }

/-- An anchor with no populated attributes, for building test anchors. -/
def baseAnchor : Anchor :=
  { href := none
    dataAttr := none
    dataHref := none
    dataUrl := none
    classes := []
    label := "" }

/-- A document with no recognizable elements at all. -/
def emptyDoc : Doc :=
  { baseHref := none
    panels := []
    maincards := []
    ptitles := []
    generics := []
    blocks := [] }

/-- A document whose only candidate is a main card whose footer names the
same author twice. -/
def c1doc : Doc :=
  { emptyDoc with
    maincards := [{ id := none
                    bodyText := some "Duplicate Authors Paper"
                    footerText := some "John Doe, John Doe"
                    headerText := none
                    anchors := []
                    fullText := "Duplicate Authors Paper John Doe, John Doe" }] }

/-- Existing record for the C2 merge example: present index `0`, empty
summary, present session. -/
def c2cur : Entry :=
  { baseEntry with
    title := "Shared Title"
    index := some 0
    session := some "Session A"
    summary := none
    raw_excerpt := "kept excerpt" }

/-- Incoming candidate for the C2 merge example. -/
def c2new : Entry :=
  { baseEntry with
    title := "  shared TITLE "
    index := some 5
    session := some "Session B"
    summary := some "incoming summary"
    raw_excerpt := "incoming excerpt" }

/-- Existing record for the C3 score-merge example: a null pdf score and a
present kimi score. -/
def c3cur : Entry :=
  { baseEntry with
    title := "Scored Paper"
    scores := some [("pdf", none), ("kimi", some 7)] }

/-- Incoming candidate for the C3 score-merge example. -/
def c3new : Entry :=
  { baseEntry with
    title := "Scored Paper"
    scores := some [("pdf", some 5), ("kimi", some 9)] }

/-- A panel card with only a title link and an optional index badge. -/
def mkIndexPanel (t : String) (idx : Option String) : Panel :=
  { id := none
    titleLink := some { text := t, href := none }
    heading := none
    authorTexts := []
    summaryText := none
    subjectTexts := []
    keywordsAttr := none
    anchors := []
    pdfTag := none
    detailHref := none
    kimiSup := none
    indexText := idx
    fullText := t }

/-- The ranking example document: indices `[3, None, 1]` with titles
`["Charlie", "Bravo", "Alpha"]`. -/
def c4doc : Doc :=
  { emptyDoc with
    panels := [mkIndexPanel "Charlie" (some "3"),
               mkIndexPanel "Bravo" none,
               mkIndexPanel "Alpha" (some "1")] }

/-- A document where all four structural parsers find nothing but one
generic block carries a heading and a link. -/
def c5doc : Doc :=
  { emptyDoc with
    blocks := [{ id := some "blk1"
                 anchors := [{ baseAnchor with
                               href := some "https://conf.example/paper.pdf" }]
                 headingText := some "Fallback Paper"
                 fullText := "Fallback Paper Jane Roe" }] }

/-- An anchor marked as an author-search link. -/
def c7AuthorAnchor : Anchor :=
  { baseAnchor with
    href := some "https://conf.example/search?author=doe"
    classes := ["author"]
    label := "Jane Doe" }

/-- A plain anchor for the C7 witness. -/
def c7PlainAnchor : Anchor :=
  { baseAnchor with
    href := some "https://arxiv.org/abs/1234.5678"
    label := "paper page" }

/-- The failing input for the definition-list author search: the first `dd`
sibling is a notes block, the second is the authors block. -/
def c8pt : Ptitle :=
  { id := none
    titleText := "Sibling Search Paper"
    dds := [{ classes := ["notes"], text := "Alice Smith, Bob Jones" },
            { classes := ["authors"], text := "Jane Doe" }]
    parentAnchors := [] }

/-- A document with two candidates whose titles agree up to case and
surrounding whitespace. -/
def c9doc : Doc :=
  { emptyDoc with
    maincards := [{ id := none
                    bodyText := some "Case Study"
                    footerText := some "Ann Lee"
                    headerText := none
                    anchors := []
                    fullText := "Case Study Ann Lee" },
                  { id := none
                    bodyText := some "  CASE STUDY "
                    footerText := some "Bo Chen"
                    headerText := none
                    anchors := []
                    fullText := "CASE STUDY Bo Chen" }] }

/-- Existing record for the C10 witness: no score keys at all. -/
def c10cur : Entry :=
  { baseEntry with title := "Scoreless", scores := none }

/-- Incoming candidate for the C10 witness: an empty score mapping. -/
def c10new : Entry :=
  { baseEntry with title := "Scoreless", scores := some [] }

/-- A list field is clean when it has no duplicates and no empty strings. -/
def cleanL (l : List String) : Prop :=
  l.Nodup ∧ "" ∉ l

/-- Every per-kind URL list of a link mapping is clean. -/
def linksClean (m : List (String × List String)) : Prop :=
  ∀ kv ∈ m, cleanL kv.2

/-- The dedup invariant exactly as the claim states it: authors, subjects,
keywords and every per-kind URL list contain no duplicates and no empty
strings. -/
def entryClean (e : Entry) : Prop :=
  cleanL e.authors ∧ cleanL e.subjects ∧ cleanL e.keywords ∧ linksClean e.links

/-- The invariant the code actually maintains: authors may repeat (free-text
splitting does not deduplicate) but are never empty; subjects, keywords and
links are fully clean. -/
def entryCleanA (e : Entry) : Prop :=
  ("" ∉ e.authors) ∧ cleanL e.subjects ∧ cleanL e.keywords ∧ linksClean e.links

/-- The ordered rule table of the Link Classifier, written from the spec:
first matching rule wins, over class list, URL content and label text. -/
def linkRules : List (String × (String → String → String → Bool)) :=
  [("pdf", fun classes hrefL labelL =>
      hasSub classes "title-pdf" || hasSub hrefL "pdf" || leadChars "[pdf".data labelL.data),
   ("supp", fun classes hrefL labelL =>
      hasSub classes "supp" || hasSub hrefL "supp" || hasSub labelL "supp"),
   ("arxiv", fun _ hrefL _ => hasSub hrefL "arxiv"),
   ("video", fun _ hrefL _ => hasSub hrefL "video" || hasSub hrefL "youtube"),
   ("slides", fun _ hrefL labelL => hasSub hrefL "slides" || hasSub labelL "slides"),
   ("venue", fun classes hrefL _ => hasSub classes "title-link" || hasSub hrefL "venue"),
   ("detail", fun _ hrefL _ => hasSub hrefL "paper.html")]

/-- Evaluate an ordered rule table: the first matching rule's kind wins and
"link" is the default when no rule matches. -/
def firstMatch (rules : List (String × (String → String → String → Bool)))
    (classes hrefL labelL : String) : String :=
  match rules with
  | [] => "link"
  | (k, p) :: rest =>
    if p classes hrefL labelL then k else firstMatch rest classes hrefL labelL

/-- The candidates the four structural parsers contribute for a document. -/
def candidatesOf (d : Doc) : List Entry :=
  runParsers (parserResults d)

/-- Invariant of the aggregation map: keys are distinct and each stored
entry satisfies `P`, carries its own normalized title as key, and has a
non-empty key. -/
def AggInv (P : Entry → Prop) (m : List (String × Entry)) : Prop :=
  (m.map Prod.fst).Nodup ∧
    ∀ kv ∈ m, P kv.2 ∧ normKey kv.2.title = kv.1 ∧ kv.1 ≠ ""

/-- Score lookup on a record: `record["scores"]` defaulted to the empty
mapping, then Python-dict lookup of the score key. -/
def getScore (e : Entry) (k : String) : Option (Option Nat) :=
  dictGet (e.scores.getD []) k

/-- Existing record for the second C3 example: a present pdf score of 5. -/
def c3cur2 : Entry :=
  { baseEntry with
    title := "Twice Scored Paper"
    scores := some [("pdf", some 5)] }

/-- Incoming candidate for the second C3 example: a conflicting pdf score. -/
def c3new2 : Entry :=
  { baseEntry with
    title := "Twice Scored Paper"
    scores := some [("pdf", some 9)] }

/-- The value list of the aggregation map for a document. -/
def papersOf (d : Doc) : List Entry :=
  (aggregate (candidatesOf d)).map Prod.snd

/-- The first candidate the parsers produce for `c9doc`. -/
def c9cand : Entry :=
  (candidatesOf c9doc).getD 0 baseEntry

/-- The single output record for `c1doc`. -/
def c1out : Entry :=
  (extract_papers c1doc).getD 0 baseEntry

/-! ### Generic helper lemmas -/

/-- A fold preserves an invariant preserved by every step on a list member. -/
theorem foldlInv {α β : Type} (P : β → Prop) (step : β → α → β) :
    ∀ (l : List α) (b : β), P b →
      (∀ b' a, a ∈ l → P b' → P (step b' a)) → P (l.foldl step b)
  | [], _, hb, _ => hb
  | a :: rest, b, hb, hstep =>
    foldlInv P step rest (step b a) (hstep b a (List.mem_cons_self a rest) hb)
      (fun b' a' ha' hb' => hstep b' a' (List.mem_cons_of_mem a ha') hb')

/-- A successful dict lookup is a binding of the list. -/
theorem dictGet_mem {α : Type} :
    ∀ (m : List (String × α)) (k : String) (v : α),
      dictGet m k = some v → (k, v) ∈ m := by
  intro m
  induction m with
  | nil => intro k v h; simp [dictGet] at h
  | cons kv rest ih =>
    intro k v h
    cases kv with
    | mk k1 v1 =>
      rw [dictGet] at h
      by_cases hk : k1 = k
      · subst hk
        rw [if_pos rfl] at h
        cases h
        exact List.mem_cons_self _ _
      · rw [if_neg hk] at h
        exact List.mem_cons_of_mem _ (ih k v h)

/-- Members of a dict write are the new binding or old bindings. -/
theorem mem_dictSet {α : Type} :
    ∀ (m : List (String × α)) (k : String) (v : α) (kv : String × α),
      kv ∈ dictSet m k v → kv = (k, v) ∨ kv ∈ m := by
  intro m
  induction m with
  | nil => intro k v kv h; simp [dictSet] at h; simp [h]
  | cons kv' rest ih =>
    intro k v kv h
    rw [dictSet] at h
    by_cases hk : kv'.1 = k
    · simp only [hk, if_pos rfl] at h
      rcases List.mem_cons.mp h with h1 | h1
      · exact Or.inl h1
      · exact Or.inr (List.mem_cons_of_mem _ h1)
    · simp only [hk, if_neg hk] at h
      rcases List.mem_cons.mp h with h1 | h1
      · exact Or.inr (h1 ▸ List.mem_cons_self _ _)
      · rcases ih k v kv h1 with h2 | h2
        · exact Or.inl h2
        · exact Or.inr (List.mem_cons_of_mem _ h2)

/-- Reading back the key just written. -/
theorem dictGet_dictSet_self {α : Type} :
    ∀ (m : List (String × α)) (k : String) (v : α),
      dictGet (dictSet m k v) k = some v := by
  intro m
  induction m with
  | nil => intro k v; simp [dictSet, dictGet]
  | cons kv rest ih =>
    intro k v
    rw [dictSet]
    by_cases hk : kv.1 = k
    · simp [hk, dictGet]
    · simp only [hk, if_neg hk, dictGet, ih]
      simp [hk]

/-- Writing one key leaves the others unchanged. -/
theorem dictGet_dictSet_ne {α : Type} :
    ∀ (m : List (String × α)) (k' k : String) (v : α), k' ≠ k →
      dictGet (dictSet m k' v) k = dictGet m k := by
  intro m
  induction m with
  | nil => intro k' k v hne; simp [dictSet, dictGet, hne]
  | cons kv rest ih =>
    intro k' k v hne
    rw [dictSet]
    by_cases hk : kv.1 = k'
    · simp [dictGet, hk, hne]
    · simp only [if_neg hk, dictGet, ih _ _ _ hne]

/-- A lookup fails exactly when the key is absent. -/
theorem dictGet_none_iff {α : Type} :
    ∀ (m : List (String × α)) (k : String),
      dictGet m k = none ↔ k ∉ m.map Prod.fst := by
  intro m
  induction m with
  | nil => intro k; simp [dictGet]
  | cons kv rest ih =>
    intro k
    rw [dictGet]
    by_cases hk : kv.1 = k
    · simp [hk]
    · simp [hk, ih, Ne.symm hk]

/-- Overwriting a present key preserves the key list. -/
theorem map_fst_dictSet {α : Type} :
    ∀ (m : List (String × α)) (k : String) (v w : α),
      dictGet m k = some w → (dictSet m k v).map Prod.fst = m.map Prod.fst := by
  intro m
  induction m with
  | nil => intro k v w h; simp [dictGet] at h
  | cons kv rest ih =>
    intro k v w h
    rw [dictGet] at h
    rw [dictSet]
    by_cases hk : kv.1 = k
    · simp [hk]
    · simp only [hk, if_neg hk] at h
      simp [hk, ih _ v _ h]

/-- Elements surviving `dedupeGo` are non-empty and new to `seen`. -/
theorem dedupeGo_mem :
    ∀ (l seen : List String) (x : String),
      x ∈ dedupeGo l seen → x ≠ "" ∧ x ∉ seen := by
  intro l
  induction l with
  | nil => intro seen x h; simp [dedupeGo] at h
  | cons y rest ih =>
    intro seen x h
    rw [dedupeGo] at h
    by_cases hy : y = "" ∨ y ∈ seen
    · rw [if_pos hy] at h
      exact ih seen x h
    · rw [if_neg hy] at h
      rcases List.mem_cons.mp h with h1 | h1
      · push_neg at hy
        exact h1 ▸ ⟨hy.1, hy.2⟩
      · have := ih (y :: seen) x h1
        exact ⟨this.1, fun hx => this.2 (List.mem_cons_of_mem _ hx)⟩

/-- The result of `dedupeGo` has no duplicates. -/
theorem dedupeGo_nodup :
    ∀ (l seen : List String), (dedupeGo l seen).Nodup := by
  intro l
  induction l with
  | nil => intro seen; simp [dedupeGo]
  | cons y rest ih =>
    intro seen
    rw [dedupeGo]
    by_cases hy : y = "" ∨ y ∈ seen
    · rw [if_pos hy]; exact ih seen
    · rw [if_neg hy]
      refine List.nodup_cons.mpr ⟨fun hmem => ?_, ih (y :: seen)⟩
      exact (dedupeGo_mem rest (y :: seen) y hmem).2 (List.mem_cons_self _ _)

/-- Deduplication always yields a clean list. -/
theorem dedupe_clean (l : List String) : cleanL (dedupe_preserve_order l) := by
  refine ⟨dedupeGo_nodup l [], fun h => ?_⟩
  exact (dedupeGo_mem l [] "" h).1 rfl

/-- Authors produced by `split_authors` are never empty strings. -/
theorem split_authors_ne_empty (t : String) : "" ∉ split_authors t := by
  rw [split_authors]
  by_cases h : stripBoth isStripSet (collapseWs t.data) = []
  · simp [h]
  · simp only [h, if_neg h]
    intro hmem
    have := (List.mem_filter.mp hmem).2
    simp at this

/-- A string is empty exactly when its character list is. -/
theorem str_eq_empty_iff (s : String) : s = "" ↔ s.data = [] := by
  constructor
  · intro h; rw [h]
  · intro h
    cases s with
    | mk data => cases h; rfl

/-- String concatenation of a non-empty tail is non-empty. -/
theorem append_ne_empty (b u : String) (hu : u ≠ "") : b ++ u ≠ "" := by
  intro h
  rw [str_eq_empty_iff] at h
  rw [String.data_append] at h
  rcases List.append_eq_nil.mp h with ⟨_, h2⟩
  exact hu ((str_eq_empty_iff u).mpr h2)

/-- URL joining preserves non-emptiness. -/
theorem urljoin_ne_empty (base : Option String) (u : String) (hu : u ≠ "") :
    urljoin base u ≠ "" := by
  cases base with
  | none => exact hu
  | some b =>
    rw [urljoin]
    by_cases h : hasSub u "://"
    · simp [h, hu]
    · simp only [h]
      simp only [Bool.false_eq_true, if_false]
      exact append_ne_empty b u hu

/-- A populated URL attribute found by `pickAttr` is non-empty. -/
theorem pickAttr_ne_empty :
    ∀ (l : List (Option String)) (u : String), pickAttr l = some u → u ≠ "" := by
  intro l
  induction l with
  | nil => intro u h; simp [pickAttr] at h
  | cons c rest ih =>
    intro u h
    cases c with
    | none => exact ih u h
    | some s =>
      rw [pickAttr] at h
      by_cases hs : pyStrip s = ""
      · rw [if_pos hs] at h
        exact ih u h
      · rw [if_neg hs] at h
        cases h
        exact hs

/-- Appending a non-empty URL keeps a per-kind list clean. -/
theorem addUrl_clean (d : List String) (u : String) (hd : cleanL d) (hu : u ≠ "") :
    cleanL (addUrl d u) := by
  rw [addUrl]
  by_cases hm : u ∈ d
  · simpa [hm] using hd
  · rw [if_neg hm]
    constructor
    · simpa [List.nodup_append, hm] using hd.1
    · intro h
      rcases List.mem_append.mp h with h1 | h1
      · exact hd.2 h1
      · simp at h1
        exact hu h1.symm

/-- Folding non-empty URLs into a clean list keeps it clean. -/
theorem foldl_addUrl_clean :
    ∀ (us : List String) (d : List String), cleanL d → (∀ u ∈ us, u ≠ "") →
      cleanL (us.foldl addUrl d) := by
  intro us
  induction us with
  | nil => intro d hd _; exact hd
  | cons u rest ih =>
    intro d hd hus
    rw [List.foldl_cons]
    exact ih (addUrl d u) (addUrl_clean d u hd (hus u (List.mem_cons_self _ _)))
      (fun u' hu' => hus u' (List.mem_cons_of_mem _ hu'))

/-- The per-kind list of a clean link mapping is clean. -/
theorem dictGet_links_clean (m : List (String × List String)) (k : String)
    (hm : linksClean m) : cleanL ((dictGet m k).getD []) := by
  cases h : dictGet m k with
  | none => exact ⟨List.nodup_nil, by simp⟩
  | some l => exact hm (k, l) (dictGet_mem m k l h)

/-- Layering one non-empty URL keeps the link mapping clean. -/
theorem layerUrl_clean (m : List (String × List String)) (k : String) (u : String)
    (hm : linksClean m) (hu : u ≠ "") : linksClean (layerUrl m k u) := by
  intro kv hkv
  rcases mem_dictSet _ _ _ _ hkv with h1 | h1
  · rw [h1]
    exact addUrl_clean _ u (dictGet_links_clean m k hm) hu
  · exact hm kv h1

/-- Each `extract_links` loop iteration keeps the mapping clean. -/
theorem linkStep_clean (base : Option String) (m : List (String × List String))
    (a : Anchor) (hm : linksClean m) : linksClean (linkStep base m a) := by
  rw [linkStep]
  cases hp : pickAttr [a.href, a.dataAttr, a.dataHref, a.dataUrl] with
  | none => exact hm
  | some u0 =>
    by_cases hcl : hasSub (anchorClasses a) "author"
    · simpa [hcl] using hm
    · simp only [hcl, if_neg, Bool.false_eq_true, not_false_eq_true]
      exact layerUrl_clean _ _ _ hm
        (urljoin_ne_empty base u0 (pickAttr_ne_empty _ u0 hp))

/-- The Link Classifier produces only clean per-kind URL lists. -/
theorem extract_links_clean (anchors : List Anchor) (base : Option String) :
    linksClean (extract_links anchors base) := by
  rw [extract_links]
  exact foldlInv linksClean (linkStep base) anchors [] (by intro kv h; simp at h)
    (fun m a _ hm => linkStep_clean base m a hm)

/-- Merging link mappings preserves cleanliness. -/
theorem mergeLinks_clean (cur newL : List (String × List String))
    (hc : linksClean cur) (hn : linksClean newL) :
    linksClean (mergeLinks cur newL) := by
  rw [mergeLinks]
  refine foldlInv linksClean _ newL cur hc ?_
  intro m kv hkv hm kv' hkv'
  rcases mem_dictSet _ _ _ _ hkv' with h1 | h1
  · rw [h1]
    exact foldl_addUrl_clean kv.2 _ (dictGet_links_clean m kv.1 hm)
      (fun u hu => fun he => (hn kv hkv).2 (he ▸ hu))
  · exact hm kv' h1

/-- Layering an optional URL keeps the mapping clean. -/
theorem layerOpt_clean (m : List (String × List String)) (k : String)
    (base : Option String) (uo : Option String) (hm : linksClean m) :
    linksClean (layerOpt m k base uo) := by
  cases uo with
  | none => exact hm
  | some u =>
    rw [layerOpt]
    by_cases hu : u = ""
    · simpa [hu] using hm
    · rw [if_neg hu]
      exact layerUrl_clean _ _ _ hm (urljoin_ne_empty base u hu)

/-- Panel links are clean. -/
theorem panelLinks_clean (base : Option String) (p : Panel) (ttag : TitleTag) :
    linksClean (panelLinks base p ttag) := by
  exact layerOpt_clean _ _ _ _ (layerOpt_clean _ _ _ _ (layerOpt_clean _ _ _ _
    (extract_links_clean p.anchors base)))

/-- Panel-card candidates satisfy the maintained invariant (their authors
are even duplicate-free, being deduplicated at construction). -/
theorem panelEntry_cleanA (base : Option String) (p : Panel) (e : Entry)
    (h : panelEntry base p = some e) : entryCleanA e := by
  rw [panelEntry] at h
  split at h
  · cases h
  · split at h
    · cases h
    · cases h
      exact ⟨(dedupe_clean _).2, dedupe_clean _, dedupe_clean _,
        panelLinks_clean base p _⟩

/-- Main-card candidates satisfy the maintained invariant. -/
theorem maincardEntry_cleanA (base : Option String) (c : Maincard) (e : Entry)
    (h : maincardEntry base c = some e) : entryCleanA e := by
  rw [maincardEntry] at h
  split at h
  · cases h
  · dsimp only at h
    split at h
    · cases h
    · cases h
      exact ⟨split_authors_ne_empty _, ⟨List.nodup_nil, List.not_mem_nil _⟩,
        ⟨List.nodup_nil, List.not_mem_nil _⟩, extract_links_clean c.anchors base⟩

/-- The author-search loop never introduces empty author strings. -/
theorem ptitleLoop_ne_empty :
    ∀ (dds : List DdTag) (authors : List String), "" ∉ authors →
      "" ∉ (ptitleLoop authors dds).1 := by
  intro dds
  induction dds with
  | nil => intro authors h; exact h
  | cons dd rest ih =>
    intro authors h
    rw [ptitleLoop]
    by_cases hc : hasSub (joinSp dd.classes) "authors" ||
        hasSub (joinSp dd.classes) "pauthors" || authors.isEmpty
    · simp only [hc, if_true]
      exact split_authors_ne_empty _
    · simp only [hc, if_false]
      exact ih authors h

/-- Definition-list candidates satisfy the maintained invariant. -/
theorem ptitleEntry_cleanA (base : Option String) (pt : Ptitle) (e : Entry)
    (h : ptitleEntry base pt = some e) : entryCleanA e := by
  rw [ptitleEntry] at h
  dsimp only at h
  split at h
  · cases h
  · cases h
    exact ⟨ptitleLoop_ne_empty pt.dds [] (List.not_mem_nil _),
      ⟨List.nodup_nil, List.not_mem_nil _⟩, ⟨List.nodup_nil, List.not_mem_nil _⟩,
      extract_links_clean pt.parentAnchors base⟩

/-- Generic-container candidates satisfy the maintained invariant. -/
theorem genericEntry_cleanA (base : Option String) (g : GenericTag) (e : Entry)
    (h : genericEntry base g = some e) : entryCleanA e := by
  rw [genericEntry] at h
  split at h
  · cases h
  · split at h
    · cases h
    · dsimp only at h
      split at h
      · cases h
      · cases h
        exact ⟨split_authors_ne_empty _, ⟨List.nodup_nil, List.not_mem_nil _⟩,
          ⟨List.nodup_nil, List.not_mem_nil _⟩, extract_links_clean g.anchors base⟩

/-- Fallback block records satisfy the maintained invariant whenever their
links mapping does. -/
theorem blockEntry_cleanA (b : Block) (title : String)
    (links : List (String × List String)) (hl : linksClean links) :
    entryCleanA (blockEntry b title links) := by
  exact ⟨split_authors_ne_empty _, ⟨List.nodup_nil, List.not_mem_nil _⟩,
    ⟨List.nodup_nil, List.not_mem_nil _⟩, hl⟩

/-- Merging preserves the maintained invariant. -/
theorem merge_cleanA (cur incoming : Entry) (hc : entryCleanA cur)
    (hn : entryCleanA incoming) : entryCleanA (merge_entries cur incoming) := by
  exact ⟨(dedupe_clean _).2, dedupe_clean _, dedupe_clean _,
    mergeLinks_clean cur.links incoming.links hc.2.2.2 hn.2.2.2⟩

/-- Merging keeps the existing record's title. -/
theorem merge_title (cur incoming : Entry) :
    (merge_entries cur incoming).title = cur.title := rfl

/-- One aggregation step preserves the aggregation invariant. -/
theorem aggStep_inv (P : Entry → Prop)
    (hP : ∀ a b, P a → P b → P (merge_entries a b))
    (m : List (String × Entry)) (item : Entry) (hm : AggInv P m) (hi : P item) :
    AggInv P (aggStep m item) := by
  rw [aggStep]
  by_cases hk : normKey item.title = ""
  · simpa [hk] using hm
  · rw [if_neg hk]
    cases hget : dictGet m (normKey item.title) with
    | some cur =>
      have hmemcur : (normKey item.title, cur) ∈ m := dictGet_mem m _ cur hget
      have hcur := hm.2 _ hmemcur
      refine ⟨?_, ?_⟩
      · rw [map_fst_dictSet m _ _ _ hget]
        exact hm.1
      · intro kv hkv
        rcases mem_dictSet _ _ _ _ hkv with h1 | h1
        · subst h1
          refine ⟨hP cur item hcur.1 hi, ?_, hk⟩
          rw [merge_title]
          exact hcur.2.1
        · exact hm.2 kv h1
    | none =>
      have hnot : normKey item.title ∉ m.map Prod.fst :=
        (dictGet_none_iff m _).mp hget
      refine ⟨?_, ?_⟩
      · rw [List.map_append]
        simp only [List.map_cons, List.map_nil]
        rw [List.nodup_append]
        exact ⟨hm.1, List.nodup_singleton _, by
          intro k hkm hks
          simp at hks
          exact hnot (hks ▸ hkm)⟩
      · intro kv hkv
        rcases List.mem_append.mp hkv with h1 | h1
        · exact hm.2 kv h1
        · simp at h1
          subst h1
          exact ⟨hi, rfl, hk⟩

/-- The aggregation map of any candidate list satisfies the invariant, for
any merge-preserved property that all candidates enjoy. -/
theorem aggregate_inv (P : Entry → Prop)
    (hP : ∀ a b, P a → P b → P (merge_entries a b))
    (cands : List Entry) (hc : ∀ c ∈ cands, P c) : AggInv P (aggregate cands) := by
  rw [aggregate]
  refine foldlInv (AggInv P) aggStep cands []
    ⟨List.nodup_nil, fun kv hkv => absurd hkv (List.not_mem_nil _)⟩ ?_
  intro m item hitem hm
  exact aggStep_inv P hP m item hm (hc item hitem)

/-- Aggregation steps never remove keys. -/
theorem aggStep_keys_mono (m : List (String × Entry)) (item : Entry) (k : String)
    (h : k ∈ m.map Prod.fst) : k ∈ (aggStep m item).map Prod.fst := by
  rw [aggStep]
  by_cases hk : normKey item.title = ""
  · simpa [hk] using h
  · rw [if_neg hk]
    cases hget : dictGet m (normKey item.title) with
    | some cur =>
      rw [map_fst_dictSet m _ _ _ hget]
      exact h
    | none =>
      rw [List.map_append]
      exact List.mem_append_left _ h

/-- Aggregating more candidates never removes keys. -/
theorem aggregate_keys_mono :
    ∀ (cands : List Entry) (m : List (String × Entry)) (k : String),
      k ∈ m.map Prod.fst → k ∈ (cands.foldl aggStep m).map Prod.fst := by
  intro cands
  induction cands with
  | nil => intro m k h; exact h
  | cons c rest ih =>
    intro m k h
    rw [List.foldl_cons]
    exact ih (aggStep m c) k (aggStep_keys_mono m c k h)

/-- A step on a candidate with a non-empty key records that key. -/
theorem aggStep_adds_key (m : List (String × Entry)) (item : Entry)
    (hk : normKey item.title ≠ "") :
    normKey item.title ∈ (aggStep m item).map Prod.fst := by
  rw [aggStep, if_neg hk]
  cases hget : dictGet m (normKey item.title) with
  | some cur =>
    rw [map_fst_dictSet m _ _ _ hget]
    exact List.mem_map.mpr ⟨_, dictGet_mem m _ cur hget, rfl⟩
  | none =>
    rw [List.map_append]
    refine List.mem_append_right _ ?_
    simp

/-- Every surviving candidate's key reaches the aggregation map. -/
theorem aggregate_has_key :
    ∀ (cands : List Entry) (m : List (String × Entry)) (c : Entry),
      c ∈ cands → normKey c.title ≠ "" →
      normKey c.title ∈ (cands.foldl aggStep m).map Prod.fst := by
  intro cands
  induction cands with
  | nil => intro m c h; cases h
  | cons c0 rest ih =>
    intro m c h hk
    rw [List.foldl_cons]
    rcases List.mem_cons.mp h with h1 | h1
    · subst h1
      exact aggregate_keys_mono rest (aggStep m c) _ (aggStep_adds_key m c hk)
    · exact ih (aggStep m c0) c h1 hk

/-- Stable insertion permutes the consed list. -/
theorem insertSorted_perm {α : Type} (le : α → α → Bool) (x : α) :
    ∀ l : List α, (insertSorted le x l).Perm (x :: l) := by
  intro l
  induction l with
  | nil => exact List.Perm.refl _
  | cons y ys ih =>
    rw [insertSorted]
    by_cases h : le x y
    · rw [if_pos h]
    · rw [if_neg h]
      exact (ih.cons y).trans (List.Perm.swap x y ys)

/-- The insertion sort is a permutation of its input. -/
theorem sortBy_perm {α : Type} (le : α → α → Bool) :
    ∀ l : List α, (sortBy le l).Perm l := by
  intro l
  induction l with
  | nil => exact List.Perm.refl _
  | cons x xs ih =>
    rw [sortBy]
    exact (insertSorted_perm le x (sortBy le xs)).trans (ih.cons x)

/-- Membership is invariant under the sort. -/
theorem sortBy_mem {α : Type} (le : α → α → Bool) (l : List α) (a : α) :
    a ∈ sortBy le l ↔ a ∈ l :=
  (sortBy_perm le l).mem_iff

/-- Membership after stable insertion. -/
theorem mem_insertSorted {α : Type} (le : α → α → Bool) (x : α) (l : List α)
    (a : α) : a ∈ insertSorted le x l ↔ a = x ∨ a ∈ l := by
  rw [(insertSorted_perm le x l).mem_iff]
  exact List.mem_cons

/-- Stable insertion preserves sortedness for a total transitive comparison. -/
theorem insertSorted_pairwise {α : Type} (le : α → α → Bool)
    (htot : ∀ a b, le a b = true ∨ le b a = true)
    (htr : ∀ a b c, le a b = true → le b c = true → le a c = true) (x : α) :
    ∀ l : List α, l.Pairwise (fun a b => le a b = true) →
      (insertSorted le x l).Pairwise (fun a b => le a b = true) := by
  intro l
  induction l with
  | nil =>
    intro _
    exact List.pairwise_singleton _ _
  | cons y ys ih =>
    intro h
    rcases List.pairwise_cons.mp h with ⟨hy, hys⟩
    rw [insertSorted]
    by_cases hxy : le x y
    · rw [if_pos hxy]
      refine List.pairwise_cons.mpr ⟨?_, h⟩
      intro z hz
      rcases List.mem_cons.mp hz with h1 | h1
      · exact h1 ▸ hxy
      · exact htr x y z hxy (hy z h1)
    · rw [if_neg hxy]
      have hyx : le y x = true := by
        rcases htot x y with h1 | h1
        · exact absurd h1 hxy
        · exact h1
      refine List.pairwise_cons.mpr ⟨?_, ih hys⟩
      intro z hz
      rcases (mem_insertSorted le x ys z).mp hz with h1 | h1
      · exact h1 ▸ hyx
      · exact hy z h1

/-- The insertion sort is sorted for a total transitive comparison. -/
theorem sortBy_pairwise {α : Type} (le : α → α → Bool)
    (htot : ∀ a b, le a b = true ∨ le b a = true)
    (htr : ∀ a b c, le a b = true → le b c = true → le a c = true) :
    ∀ l : List α, (sortBy le l).Pairwise (fun a b => le a b = true) := by
  intro l
  induction l with
  | nil => exact List.Pairwise.nil
  | cons x xs ih =>
    rw [sortBy]
    exact insertSorted_pairwise le htot htr x (sortBy le xs) ih

/-- Unfolding of the lexicographic character comparison at a cons pair. -/
theorem charListLe_cons_iff (a b : Char) (as bs : List Char) :
    charListLe (a :: as) (b :: bs) = true ↔
      a.toNat < b.toNat ∨ (a.toNat = b.toNat ∧ charListLe as bs = true) := by
  simp [charListLe, Bool.or_eq_true, Bool.and_eq_true, decide_eq_true_iff]

/-- The lexicographic character comparison is total. -/
theorem charListLe_total :
    ∀ x y : List Char, charListLe x y = true ∨ charListLe y x = true := by
  intro x
  induction x with
  | nil => intro y; exact Or.inl rfl
  | cons a as ih =>
    intro y
    cases y with
    | nil => exact Or.inr rfl
    | cons b bs =>
      rcases Nat.lt_trichotomy a.toNat b.toNat with h | h | h
      · exact Or.inl ((charListLe_cons_iff a b as bs).mpr (Or.inl h))
      · rcases ih bs with h2 | h2
        · exact Or.inl ((charListLe_cons_iff a b as bs).mpr (Or.inr ⟨h, h2⟩))
        · exact Or.inr ((charListLe_cons_iff b a bs as).mpr (Or.inr ⟨h.symm, h2⟩))
      · exact Or.inr ((charListLe_cons_iff b a bs as).mpr (Or.inl h))

/-- The lexicographic character comparison is transitive. -/
theorem charListLe_trans :
    ∀ x y z : List Char, charListLe x y = true → charListLe y z = true →
      charListLe x z = true := by
  intro x
  induction x with
  | nil => intro y z _ _; rfl
  | cons a as ih =>
    intro y z hxy hyz
    cases y with
    | nil => simp [charListLe] at hxy
    | cons b bs =>
      cases z with
      | nil => simp [charListLe] at hyz
      | cons c cs =>
        rcases (charListLe_cons_iff a b as bs).mp hxy with h1 | h1 <;>
          rcases (charListLe_cons_iff b c bs cs).mp hyz with h2 | h2
        · exact (charListLe_cons_iff a c as cs).mpr (Or.inl (h1.trans h2))
        · exact (charListLe_cons_iff a c as cs).mpr (Or.inl (h2.1 ▸ h1))
        · exact (charListLe_cons_iff a c as cs).mpr (Or.inl (h1.1 ▸ h2))
        · exact (charListLe_cons_iff a c as cs).mpr
            (Or.inr ⟨h1.1.trans h2.1, ih bs cs h1.2 h2.2⟩)

/-- Unfolding of the three-component ranking comparison. -/
theorem rankLe_iff (a b : Entry) :
    rankLe a b = true ↔
      rankFlag a < rankFlag b ∨
        (rankFlag a = rankFlag b ∧
          (rankIdx a < rankIdx b ∨
            (rankIdx a = rankIdx b ∧ charListLe (rankTitle a) (rankTitle b) = true))) := by
  simp [rankLe, Bool.or_eq_true, Bool.and_eq_true, decide_eq_true_iff]

/-- The ranking comparison is total. -/
theorem rankLe_total (a b : Entry) : rankLe a b = true ∨ rankLe b a = true := by
  rcases Nat.lt_trichotomy (rankFlag a) (rankFlag b) with h | h | h
  · exact Or.inl ((rankLe_iff a b).mpr (Or.inl h))
  · rcases Nat.lt_trichotomy (rankIdx a) (rankIdx b) with h2 | h2 | h2
    · exact Or.inl ((rankLe_iff a b).mpr (Or.inr ⟨h, Or.inl h2⟩))
    · rcases charListLe_total (rankTitle a) (rankTitle b) with h3 | h3
      · exact Or.inl ((rankLe_iff a b).mpr (Or.inr ⟨h, Or.inr ⟨h2, h3⟩⟩))
      · exact Or.inr ((rankLe_iff b a).mpr (Or.inr ⟨h.symm, Or.inr ⟨h2.symm, h3⟩⟩))
    · exact Or.inr ((rankLe_iff b a).mpr (Or.inr ⟨h.symm, Or.inl h2⟩))
  · exact Or.inr ((rankLe_iff b a).mpr (Or.inl h))

/-- The ranking comparison is transitive. -/
theorem rankLe_trans (a b c : Entry) (hab : rankLe a b = true)
    (hbc : rankLe b c = true) : rankLe a c = true := by
  rcases (rankLe_iff a b).mp hab with h1 | ⟨hf1, h1⟩ <;>
    rcases (rankLe_iff b c).mp hbc with h2 | ⟨hf2, h2⟩
  · exact (rankLe_iff a c).mpr (Or.inl (h1.trans h2))
  · exact (rankLe_iff a c).mpr (Or.inl (hf2 ▸ h1))
  · exact (rankLe_iff a c).mpr (Or.inl (hf1 ▸ h2))
  · refine (rankLe_iff a c).mpr (Or.inr ⟨hf1.trans hf2, ?_⟩)
    rcases h1 with h1 | ⟨hi1, h1⟩ <;> rcases h2 with h2 | ⟨hi2, h2⟩
    · exact Or.inl (h1.trans h2)
    · exact Or.inl (hi2 ▸ h1)
    · exact Or.inl (hi1 ▸ h2)
    · exact Or.inr ⟨hi1.trans hi2, charListLe_trans _ _ _ h1 h2⟩

/-- The title-only comparison is total. -/
theorem titleLe_total (a b : Entry) : titleLe a b = true ∨ titleLe b a = true :=
  charListLe_total (rankTitle a) (rankTitle b)

/-- The title-only comparison is transitive. -/
theorem titleLe_trans (a b c : Entry) (hab : titleLe a b = true)
    (hbc : titleLe b c = true) : titleLe a c = true :=
  charListLe_trans _ _ _ hab hbc

/-- The candidate list of a document splits into the four parser outputs. -/
theorem candidatesOf_eq (d : Doc) :
    candidatesOf d =
      parse_coolpapers_panels (docBase d) d.panels ++
        parse_maincards (docBase d) d.maincards ++
        parse_ptitles (docBase d) d.ptitles ++
        parse_generic_papers (docBase d) d.generics := by
  rw [candidatesOf, parserResults, runParsers]
  simp [List.foldl_cons]

/-- Every candidate any of the four parsers contributes satisfies the
maintained cleanliness invariant. -/
theorem candidatesOf_cleanA (d : Doc) :
    ∀ c ∈ candidatesOf d, entryCleanA c := by
  intro c hc
  rw [candidatesOf_eq] at hc
  rcases List.mem_append.mp hc with hc | hc
  rotate_left
  · rcases List.mem_filterMap.mp hc with ⟨g, _, hg⟩
    exact genericEntry_cleanA _ g c hg
  rcases List.mem_append.mp hc with hc | hc
  rotate_left
  · rcases List.mem_filterMap.mp hc with ⟨pt, _, hpt⟩
    exact ptitleEntry_cleanA _ pt c hpt
  rcases List.mem_append.mp hc with hc | hc
  · rcases List.mem_filterMap.mp hc with ⟨p, _, hp⟩
    exact panelEntry_cleanA _ p c hp
  · rcases List.mem_filterMap.mp hc with ⟨mc, _, hmc⟩
    exact maincardEntry_cleanA _ mc c hmc

/-- The head of a `dropWhile` result fails the predicate. -/
theorem head_dropWhile_false (p : Char → Bool) :
    ∀ (l : List Char) (c : Char), (l.dropWhile p).head? = some c → p c = false := by
  intro l
  induction l with
  | nil => intro c h; simp [List.dropWhile] at h
  | cons a r ih =>
    intro c h
    rw [List.dropWhile_cons] at h
    by_cases hp : p a
    · rw [if_pos hp] at h
      exact ih c h
    · rw [if_neg hp] at h
      simp at h
      subst h
      cases hpa : p a with
      | false => rfl
      | true => exact absurd hpa hp

/-- A list whose head fails the predicate is unchanged by `dropWhile`. -/
theorem dropWhile_eq_self_of_head (p : Char → Bool) (l : List Char)
    (h : ∀ c, l.head? = some c → p c = false) : l.dropWhile p = l := by
  cases l with
  | nil => rfl
  | cons c r =>
    rw [List.dropWhile_cons, if_neg]
    rw [h c rfl]
    simp

/-- Dropping a leading segment keeps the last element when the result is non-empty. -/
theorem getLast_dropWhile (p : Char → Bool) :
    ∀ l : List Char, l.dropWhile p ≠ [] →
      (l.dropWhile p).getLast? = l.getLast? := by
  intro l
  induction l with
  | nil => intro h; exact absurd rfl h
  | cons c r ih =>
    intro h
    rw [List.dropWhile_cons]
    by_cases hp : p c
    · rw [List.dropWhile_cons, if_pos hp] at h
      rw [if_pos hp, ih h]
      have hr : r ≠ [] := by
        intro h0
        rw [h0] at h
        exact h rfl
      cases r with
      | nil => exact absurd rfl hr
      | cons b bs => rw [List.getLast?_cons_cons]
    · rw [if_neg hp]

/-- Stripping both ends is idempotent. -/
theorem stripBoth_idem (p : Char → Bool) (l : List Char) :
    stripBoth p (stripBoth p l) = stripBoth p l := by
  have hdef : stripBoth p l = ((l.dropWhile p).reverse.dropWhile p).reverse := rfl
  rw [hdef, stripBoth]
  have h1 : ((l.dropWhile p).reverse.dropWhile p).reverse.dropWhile p =
      ((l.dropWhile p).reverse.dropWhile p).reverse := by
    apply dropWhile_eq_self_of_head
    intro c hc
    rw [List.head?_reverse] at hc
    have hBne : (l.dropWhile p).reverse.dropWhile p ≠ [] := by
      intro h0
      rw [h0] at hc
      simp at hc
    rw [getLast_dropWhile p _ hBne, List.getLast?_reverse] at hc
    exact head_dropWhile_false p l c hc
  rw [h1, List.reverse_reverse]
  have h2 : (((l.dropWhile p).reverse.dropWhile p).dropWhile p) =
      (l.dropWhile p).reverse.dropWhile p := by
    apply dropWhile_eq_self_of_head
    intro c hc
    exact head_dropWhile_false p _ c hc
  rw [h2]

/-- Python stripping is idempotent. -/
theorem pyStrip_idem (s : String) : pyStrip (pyStrip s) = pyStrip s :=
  congrArg String.mk (stripBoth_idem isWs s.data)

/-- Lower-casing preserves non-emptiness. -/
theorem lowerStr_ne_empty (s : String) (h : s ≠ "") : lowerStr s ≠ "" := by
  intro h0
  rw [str_eq_empty_iff] at h0
  rcases List.map_eq_nil_iff.mp h0 with h1
  exact h ((str_eq_empty_iff s).mpr h1)

/-- The fallback record's normalized title is its dedup key. -/
theorem fallback_normKey (raw : String) :
    normKey (pyStrip raw) = lowerStr (pyStrip raw) := by
  rw [normKey, pyStrip_idem]

/-- One fallback scan step preserves the aggregation invariant. -/
theorem fallbackStep_inv (base : Option String) (m : List (String × Entry))
    (b : Block) (hm : AggInv entryCleanA m) :
    AggInv entryCleanA (fallbackStep base m b) := by
  rw [fallbackStep]
  by_cases hl : extract_links b.anchors base = []
  · simpa [hl] using hm
  · rw [if_neg hl]
    cases hh : b.headingText with
    | none => exact hm
    | some raw =>
      dsimp only
      by_cases ht : pyStrip raw = ""
      · simpa [ht] using hm
      · rw [if_neg ht]
        by_cases hget : (dictGet m (lowerStr (pyStrip raw))).isSome
        · simpa [hget] using hm
        · simp only [hget, Bool.false_eq_true, if_false]
          have hnone : dictGet m (lowerStr (pyStrip raw)) = none :=
            Option.not_isSome_iff_eq_none.mp hget
          have hnot : lowerStr (pyStrip raw) ∉ m.map Prod.fst :=
            (dictGet_none_iff m _).mp hnone
          refine ⟨?_, ?_⟩
          · rw [List.map_append]
            simp only [List.map_cons, List.map_nil]
            rw [List.nodup_append]
            exact ⟨hm.1, List.nodup_singleton _, by
              intro k hkm hks
              simp at hks
              exact hnot (hks ▸ hkm)⟩
          · intro kv hkv
            rcases List.mem_append.mp hkv with h1 | h1
            · exact hm.2 kv h1
            · simp at h1
              subst h1
              exact ⟨blockEntry_cleanA b _ _ (extract_links_clean b.anchors base),
                fallback_normKey raw, lowerStr_ne_empty _ ht⟩

/-- The fallback scan preserves the aggregation invariant. -/
theorem fallbackScan_inv (base : Option String) (dd : List (String × Entry))
    (blocks : List Block) (hdd : AggInv entryCleanA dd) :
    AggInv entryCleanA (fallbackScan base dd blocks) := by
  rw [fallbackScan]
  exact foldlInv (AggInv entryCleanA) (fallbackStep base) blocks dd hdd
    (fun m b _ hm => fallbackStep_inv base m b hm)

/-- When the aggregation map is non-empty the pipeline ranks its values and
the fallback scanner plays no part. -/
theorem extract_papers_agg (d : Doc) (h : aggregate (candidatesOf d) ≠ []) :
    extract_papers d = rankPapers ((aggregate (candidatesOf d)).map Prod.snd) := by
  have hne : ((aggregate (candidatesOf d)).map Prod.snd).isEmpty = false := by
    cases hagg : aggregate (candidatesOf d) with
    | nil => exact absurd hagg h
    | cons a as => rfl
  rw [extract_papers, extractFrom]
  have hc : runParsers (parserResults d) = candidatesOf d := rfl
  rw [hc]
  simp only [hne, Bool.false_eq_true, if_false]

/-- When the aggregation map is empty the pipeline returns the sorted
fallback scan results. -/
theorem extract_papers_fb (d : Doc) (h : aggregate (candidatesOf d) = []) :
    extract_papers d =
      sortBy titleLe ((fallbackScan (docBase d) [] d.blocks).map Prod.snd) := by
  rw [extract_papers, extractFrom]
  have hc : runParsers (parserResults d) = candidatesOf d := rfl
  rw [hc, h]
  rfl

/-- Python `or` on optional strings returns the second argument when the
first is falsy. -/
theorem pyOrStr_falsy (a b : Option String) (h : a = none ∨ a = some "") :
    pyOrStr a b = b := by
  rcases h with h | h <;> simp [h, pyOrStr]

/-- Python `or` on optional strings keeps a truthy first argument. -/
theorem pyOrStr_truthy (a b : Option String) (s : String) (h : a = some s)
    (hs : s ≠ "") : pyOrStr a b = some s := by
  simp [h, pyOrStr, hs]

/-- Python `or` on optional numbers returns the second argument when the
first is falsy (`None` or `0`). -/
theorem pyOrNat_falsy (a b : Option Nat) (h : a = none ∨ a = some 0) :
    pyOrNat a b = b := by
  rcases h with h | h <;> simp [h, pyOrNat]

/-- Python `or` on optional numbers keeps a truthy first argument. -/
theorem pyOrNat_truthy (a b : Option Nat) (n : Nat) (h : a = some n)
    (hn : n ≠ 0) : pyOrNat a b = some n := by
  simp [h, pyOrNat, hn]

/-- A successful lookup needs a non-empty dict. -/
theorem dictGet_ne_nil {α : Type} (m : List (String × α)) (k : String) (w : α)
    (h : dictGet m k = some w) : m ≠ [] := by
  intro h0
  rw [h0] at h
  cases h

/-- Score merging never disturbs a present (non-null) score. -/
theorem mergeScores_keeps :
    ∀ (newL : List (String × Option Nat)) (m : List (String × Option Nat))
      (k : String) (v : Nat),
      dictGet m k = some (some v) → dictGet (mergeScores m newL) k = some (some v) := by
  intro newL
  induction newL with
  | nil => intro m k v h; exact h
  | cons kv rest ih =>
    intro m k v h
    rw [mergeScores, List.foldl_cons]
    have hstep :
        dictGet
          (match dictGet m kv.1, kv.2 with
            | none, some w => dictSet m kv.1 (some w)
            | some none, some w => dictSet m kv.1 (some w)
            | _, _ => m) k = some (some v) := by
      by_cases hk : kv.1 = k
      · subst hk
        rw [h]
        cases kv.2 <;> exact h
      · cases hg : dictGet m kv.1 with
        | none =>
          cases kv.2 with
          | none => exact h
          | some w => rw [dictGet_dictSet_ne m kv.1 k _ hk]; exact h
        | some u =>
          cases u with
          | none =>
            cases kv.2 with
            | none => exact h
            | some w => rw [dictGet_dictSet_ne m kv.1 k _ hk]; exact h
          | some u' => exact h
    rw [← mergeScores]
    exact ih _ k v hstep

/-- Score merging fills an absent or null score from the incoming mapping's
first binding of that key. -/
theorem mergeScores_fills :
    ∀ (newL : List (String × Option Nat)) (m : List (String × Option Nat))
      (k : String) (v : Nat),
      (dictGet m k = none ∨ dictGet m k = some none) →
      dictGet newL k = some (some v) →
      dictGet (mergeScores m newL) k = some (some v) := by
  intro newL
  induction newL with
  | nil => intro m k v _ h2; cases h2
  | cons kv rest ih =>
    intro m k v h1 h2
    rw [mergeScores, List.foldl_cons, ← mergeScores]
    cases kv with
    | mk k1 u =>
      rw [dictGet] at h2
      by_cases hk : k1 = k
      · subst hk
        rw [if_pos rfl] at h2
        cases h2
        rcases h1 with h1 | h1 <;>
          · rw [h1]
            exact mergeScores_keeps rest _ k1 v (dictGet_dictSet_self m k1 _)
      · rw [if_neg hk] at h2
        have hpres :
            (dictGet
              (match dictGet m k1, u with
                | none, some w => dictSet m k1 (some w)
                | some none, some w => dictSet m k1 (some w)
                | _, _ => m) k = none ∨
             dictGet
              (match dictGet m k1, u with
                | none, some w => dictSet m k1 (some w)
                | some none, some w => dictSet m k1 (some w)
                | _, _ => m) k = some none) := by
          cases hg : dictGet m k1 with
          | none =>
            cases u with
            | none => exact h1
            | some w => rw [dictGet_dictSet_ne m k1 k _ hk]; exact h1
          | some u' =>
            cases u' with
            | none =>
              cases u with
              | none => exact h1
              | some w => rw [dictGet_dictSet_ne m k1 k _ hk]; exact h1
            | some u'' => exact h1
        exact ih _ k v hpres h2

/-- The merged record's score lookup agrees with the merged score mapping. -/
theorem getScore_merge_of_some (cur incoming : Entry) (k : String)
    (w : Option Nat)
    (h : dictGet (mergeScores (cur.scores.getD []) (incoming.scores.getD [])) k =
      some w) : getScore (merge_entries cur incoming) k = some w := by
  have hne : mergeScores (cur.scores.getD []) (incoming.scores.getD []) ≠ [] :=
    dictGet_ne_nil _ k w h
  rw [getScore, merge_entries]
  dsimp only
  rw [if_neg hne]
  exact h

/-- Distinctness of normalized titles is a symmetric relation. -/
theorem normKeyNe_symm {a b : Entry} (h : normKey a.title ≠ normKey b.title) :
    normKey b.title ≠ normKey a.title :=
  Ne.symm h

/-! ### Claim theorems -/

/-- C2 counterexample: `merge_entries` does not keep a present index value
of 0 — Python's `or` treats 0 as absent, so the incoming index overwrites
it, refuting the claim at this input. -/
theorem c2_counterexample :
    c2cur.index = some 0 ∧ c2new.index = some 5 ∧
      normKey c2cur.title = normKey c2new.title ∧
      (merge_entries c2cur c2new).index = some 5 ∧
      (merge_entries c2cur c2new).index ≠ c2cur.index := by
  refine ⟨rfl, rfl, by decide, by decide, by decide⟩

/-- C2 (amended): for `paper_id`, `index`, `session`, `time`, `summary` and
`raw_excerpt` the existing record's value is kept whenever it is truthy
(present and neither empty nor zero); when the existing value is absent,
empty, or a zero index, the incoming candidate's value is used. -/
theorem c2_merge_scalar_fields (cur incoming : Entry) :
    ((cur.paper_id = none ∨ cur.paper_id = some "") →
      (merge_entries cur incoming).paper_id = incoming.paper_id) ∧
    (∀ s, cur.paper_id = some s → s ≠ "" →
      (merge_entries cur incoming).paper_id = some s) ∧
    ((cur.index = none ∨ cur.index = some 0) →
      (merge_entries cur incoming).index = incoming.index) ∧
    (∀ n, cur.index = some n → n ≠ 0 →
      (merge_entries cur incoming).index = some n) ∧
    ((cur.session = none ∨ cur.session = some "") →
      (merge_entries cur incoming).session = incoming.session) ∧
    (∀ s, cur.session = some s → s ≠ "" →
      (merge_entries cur incoming).session = some s) ∧
    ((cur.time = none ∨ cur.time = some "") →
      (merge_entries cur incoming).time = incoming.time) ∧
    (∀ s, cur.time = some s → s ≠ "" →
      (merge_entries cur incoming).time = some s) ∧
    ((cur.summary = none ∨ cur.summary = some "") →
      (merge_entries cur incoming).summary = incoming.summary) ∧
    (∀ s, cur.summary = some s → s ≠ "" →
      (merge_entries cur incoming).summary = some s) ∧
    (cur.raw_excerpt = "" →
      (merge_entries cur incoming).raw_excerpt = incoming.raw_excerpt) ∧
    (cur.raw_excerpt ≠ "" →
      (merge_entries cur incoming).raw_excerpt = cur.raw_excerpt) := by
  refine ⟨fun h => pyOrStr_falsy _ _ h, fun s h hs => pyOrStr_truthy _ _ s h hs,
    fun h => pyOrNat_falsy _ _ h, fun n h hn => pyOrNat_truthy _ _ n h hn,
    fun h => pyOrStr_falsy _ _ h, fun s h hs => pyOrStr_truthy _ _ s h hs,
    fun h => pyOrStr_falsy _ _ h, fun s h hs => pyOrStr_truthy _ _ s h hs,
    fun h => pyOrStr_falsy _ _ h, fun s h hs => pyOrStr_truthy _ _ s h hs,
    fun h => ?_, fun h => ?_⟩
  · show (if cur.raw_excerpt = "" then incoming.raw_excerpt else cur.raw_excerpt) = _
    rw [if_pos h]
  · show (if cur.raw_excerpt = "" then incoming.raw_excerpt else cur.raw_excerpt) = _
    rw [if_neg h]

/-- C2 witness: at the concrete pair, the zero index is replaced by the
incoming index, the empty summary is filled, and the present session and
raw excerpt are kept. -/
theorem c2_witness :
    (merge_entries c2cur c2new).index = c2new.index ∧
      (merge_entries c2cur c2new).summary = c2new.summary ∧
      (merge_entries c2cur c2new).session = some "Session A" ∧
      (merge_entries c2cur c2new).raw_excerpt = c2cur.raw_excerpt := by
  refine ⟨(c2_merge_scalar_fields c2cur c2new).2.2.1 (Or.inr rfl),
    (c2_merge_scalar_fields c2cur c2new).2.2.2.2.2.2.2.2.1 (Or.inl rfl),
    (c2_merge_scalar_fields c2cur c2new).2.2.2.2.2.1 "Session A" rfl (by decide),
    (c2_merge_scalar_fields c2cur c2new).2.2.2.2.2.2.2.2.2.2.2 (by decide)⟩

/-- C3: per score key the existing value is kept unless it is absent or
null and the incoming value is non-null; a present score is never
overwritten.  At the concrete inputs, a null pdf score is filled with 5 and
a present score of 5 survives an incoming 9. -/
theorem c3_scores_first_writer_wins :
    (∀ (cur incoming : Entry) (k : String) (v : Nat),
      getScore cur k = some (some v) →
      getScore (merge_entries cur incoming) k = some (some v)) ∧
    (∀ (cur incoming : Entry) (k : String) (v : Nat),
      (getScore cur k = none ∨ getScore cur k = some none) →
      getScore incoming k = some (some v) →
      getScore (merge_entries cur incoming) k = some (some v)) ∧
    getScore c3cur "pdf" = some none ∧
    getScore (merge_entries c3cur c3new) "pdf" = some (some 5) ∧
    getScore c3cur2 "pdf" = some (some 5) ∧
    getScore c3new2 "pdf" = some (some 9) ∧
    getScore (merge_entries c3cur2 c3new2) "pdf" = some (some 5) := by
  refine ⟨?_, ?_, by decide, by decide, by decide, by decide, by decide⟩
  · intro cur incoming k v h
    exact getScore_merge_of_some cur incoming k (some v)
      (mergeScores_keeps _ _ k v h)
  · intro cur incoming k v h1 h2
    exact getScore_merge_of_some cur incoming k (some v)
      (mergeScores_fills _ _ k v h1 h2)

/-- C3 witness: the universal parts applied at the concrete score pairs. -/
theorem c3_witness :
    getScore (merge_entries c3cur2 c3new2) "pdf" = some (some 5) ∧
      getScore (merge_entries c3cur c3new) "kimi" = some (some 7) := by
  refine ⟨c3_scores_first_writer_wins.1 c3cur2 c3new2 "pdf" 5 (by decide),
    c3_scores_first_writer_wins.1 c3cur c3new "kimi" 7 (by decide)⟩

/-- C5: the Fallback Block Scanner decides the result exactly when the
aggregated, deduplicated output of the four structural parsers is empty;
otherwise the ranked aggregation is the result and the blocks play no
part. -/
theorem c5_fallback_activation (d : Doc) :
    (aggregate (candidatesOf d) = [] →
      extract_papers d =
        sortBy titleLe ((fallbackScan (docBase d) [] d.blocks).map Prod.snd)) ∧
    (aggregate (candidatesOf d) ≠ [] →
      extract_papers d = rankPapers ((aggregate (candidatesOf d)).map Prod.snd)) :=
  ⟨extract_papers_fb d, extract_papers_agg d⟩

/-- C5 witness: on a document where the four parsers find nothing, the
scanner's record is the final result. -/
theorem c5_witness :
    aggregate (candidatesOf c5doc) = [] ∧
      extract_papers c5doc =
        sortBy titleLe ((fallbackScan (docBase c5doc) [] c5doc.blocks).map Prod.snd) ∧
      (extract_papers c5doc).map Entry.title = ["Fallback Paper"] :=
  ⟨by decide, (c5_fallback_activation c5doc).1 (by decide), by decide⟩

/-- C6: a parser pass that raises is dropped by the orchestrator — its
candidates (and only its) are absent, the other passes reach the Aggregator
unchanged, and the pipeline still produces a result. -/
theorem c6_parser_isolation (base : Option String)
    (pre post : List (Except String (List Entry))) (msg : String)
    (blocks : List Block) :
    runParsers (pre ++ Except.error msg :: post) = runParsers (pre ++ post) ∧
      extractFrom base (pre ++ Except.error msg :: post) blocks =
        extractFrom base (pre ++ post) blocks := by
  have hrun : runParsers (pre ++ Except.error msg :: post) =
      runParsers (pre ++ post) := by
    rw [runParsers, runParsers, List.foldl_append, List.foldl_append,
      List.foldl_cons]
  exact ⟨hrun, by rw [extractFrom, extractFrom, hrun]⟩

/-- C10: a merged record's scores field is never an empty mapping — when
neither candidate contributes a score key it is null, and otherwise it
carries at least one key. -/
theorem c10_merged_scores_never_empty (cur incoming : Entry) :
    (merge_entries cur incoming).scores ≠ some [] ∧
      ((cur.scores = none ∨ cur.scores = some []) →
        (incoming.scores = none ∨ incoming.scores = some []) →
        (merge_entries cur incoming).scores = none) := by
  constructor
  · rw [merge_entries]
    dsimp only
    by_cases h : mergeScores (cur.scores.getD []) (incoming.scores.getD []) = []
    · simp [h]
    · simp [h]
  · intro h1 h2
    have e1 : cur.scores.getD [] = [] := by rcases h1 with h | h <;> simp [h]
    have e2 : incoming.scores.getD [] = [] := by rcases h2 with h | h <;> simp [h]
    rw [merge_entries]
    dsimp only
    rw [e1, e2]
    rfl

/-- C10 witness: merging a record with no scores and one with an empty
score mapping yields a null scores field. -/
theorem c10_witness : (merge_entries c10cur c10new).scores = none :=
  (c10_merged_scores_never_empty c10cur c10new).2 (Or.inl rfl) (Or.inr rfl)

/-- The Ranker permutes its input. -/
theorem rankPapers_perm (papers : List Entry) :
    (rankPapers papers).Perm papers := by
  rw [rankPapers]
  by_cases h : papers.any (fun p => p.index.isSome)
  · rw [if_pos h]
    exact sortBy_perm rankLe papers
  · rw [if_neg h]
    exact sortBy_perm titleLe papers

/-- Values of a map satisfying the aggregation invariant have pairwise
distinct normalized titles. -/
theorem aggInv_values_pairwise (P : Entry → Prop) (m : List (String × Entry))
    (hm : AggInv P m) :
    (m.map Prod.snd).Pairwise (fun a b => normKey a.title ≠ normKey b.title) := by
  rw [List.pairwise_map]
  have hkeys : m.Pairwise (fun kv kv' => kv.1 ≠ kv'.1) := by
    have h0 : List.Pairwise (fun a b => a ≠ b) (m.map Prod.fst) := hm.1
    rw [List.pairwise_map] at h0
    exact h0
  refine List.Pairwise.imp_of_mem ?_ hkeys
  intro kv kv' hkv hkv' hne
  rw [(hm.2 kv hkv).2.1, (hm.2 kv' hkv').2.1]
  exact hne

/-- An author-search anchor contributes nothing to the link mapping. -/
theorem linkStep_author (base : Option String) (m : List (String × List String))
    (a : Anchor) (ha : hasSub (anchorClasses a) "author" = true) :
    linkStep base m a = m := by
  rw [linkStep]
  cases pickAttr [a.href, a.dataAttr, a.dataHref, a.dataUrl] with
  | none => rfl
  | some u0 =>
    dsimp only
    rw [if_pos ha]

/-- C1 counterexample: the dedup invariant as stated fails — a main card
whose free-text footer names the same author twice produces an output
record with duplicate authors, because `split_authors` does not
deduplicate and unmerged candidates keep their lists verbatim. -/
theorem c1_counterexample :
    ¬ (∀ e ∈ extract_papers c1doc, entryClean e) := by
  intro h
  have h1 := h c1out (by decide)
  exact absurd h1.1.1 (by decide)

/-- C1 (amended): in every output record, subjects, keywords and every
per-kind URL list contain no duplicates and no empty strings, and authors
contain no empty strings; authors may, however, contain duplicates. -/
theorem c1_dedup_invariant (d : Doc) :
    ∀ e ∈ extract_papers d, entryCleanA e := by
  by_cases hagg : aggregate (candidatesOf d) = []
  · rw [extract_papers_fb d hagg]
    intro e he
    rw [sortBy_mem] at he
    rcases List.mem_map.mp he with ⟨kv, hkv, rfl⟩
    exact ((fallbackScan_inv (docBase d) [] d.blocks
      ⟨List.nodup_nil, fun kv h => absurd h (List.not_mem_nil _)⟩).2 kv hkv).1
  · rw [extract_papers_agg d hagg]
    intro e he
    rw [(rankPapers_perm ((aggregate (candidatesOf d)).map Prod.snd)).mem_iff] at he
    rcases List.mem_map.mp he with ⟨kv, hkv, rfl⟩
    exact ((aggregate_inv entryCleanA merge_cleanA (candidatesOf d)
      (candidatesOf_cleanA d)).2 kv hkv).1

/-- C1 witness: the amended invariant holds at the concrete output record
of `c1doc` (whose authors do repeat). -/
theorem c1_witness :
    c1out ∈ extract_papers c1doc ∧ entryCleanA c1out ∧ ¬ c1out.authors.Nodup :=
  ⟨by decide, c1_dedup_invariant c1doc c1out (by decide), by decide⟩

/-- C4: when some canonical record has an index, the final output is a
permutation of the aggregation values sorted by the tuple (index-is-absent
flag, index with absent as 0, lower-cased title); otherwise it is sorted
purely by lower-cased title.  At the concrete document with indices
3/None/1 and titles Charlie/Bravo/Alpha the output is Alpha(1),
Charlie(3), Bravo(None). -/
theorem c4_ranker :
    (∀ d : Doc, papersOf d ≠ [] →
      (((∃ p ∈ papersOf d, p.index ≠ none) →
          (extract_papers d).Pairwise (fun a b => rankLe a b = true) ∧
            (extract_papers d).Perm (papersOf d)) ∧
        ((∀ p ∈ papersOf d, p.index = none) →
          (extract_papers d).Pairwise (fun a b => titleLe a b = true) ∧
            (extract_papers d).Perm (papersOf d)))) ∧
      (extract_papers c4doc).map (fun e => (e.title, e.index)) =
        [("Alpha", some 1), ("Charlie", some 3), ("Bravo", none)] := by
  constructor
  · intro d hne
    have hagg : aggregate (candidatesOf d) ≠ [] := by
      intro h0
      rw [papersOf, h0] at hne
      exact hne rfl
    rw [extract_papers_agg d hagg]
    constructor
    · intro hex
      have hany : (papersOf d).any (fun p => p.index.isSome) = true := by
        rcases hex with ⟨p, hp, hpi⟩
        exact List.any_eq_true.mpr ⟨p, hp, Option.ne_none_iff_isSome.mp hpi⟩
      rw [show (aggregate (candidatesOf d)).map Prod.snd = papersOf d from rfl,
        rankPapers, if_pos hany]
      exact ⟨sortBy_pairwise rankLe rankLe_total rankLe_trans _,
        sortBy_perm rankLe _⟩
    · intro hall
      have hany : (papersOf d).any (fun p => p.index.isSome) = false := by
        rw [List.any_eq_false]
        intro p hp
        rw [hall p hp]
        simp
      rw [show (aggregate (candidatesOf d)).map Prod.snd = papersOf d from rfl,
        rankPapers, if_neg (by rw [hany]; simp)]
      exact ⟨sortBy_pairwise titleLe titleLe_total titleLe_trans _,
        sortBy_perm titleLe _⟩
  · decide

/-- C4 witness: the ranking theorem applied at the concrete document. -/
theorem c4_witness :
    papersOf c4doc ≠ [] ∧ (∃ p ∈ papersOf c4doc, p.index ≠ none) ∧
      (extract_papers c4doc).Pairwise (fun a b => rankLe a b = true) :=
  ⟨by decide, by decide, ((c4_ranker.1 c4doc (by decide)).1 (by decide)).1⟩

/-- C7: the Link Classifier assigns each kept anchor exactly one kind, the
first match of the ordered rule list pdf > supp > arxiv > video > slides >
venue > detail with default "link"; an author-marked anchor is skipped and
contributes no link of any kind. -/
theorem c7_link_classifier :
    (∀ classes hrefL labelL : String,
      classify classes hrefL labelL = firstMatch linkRules classes hrefL labelL) ∧
      (∀ (base : Option String) (l1 l2 : List Anchor) (a : Anchor),
        hasSub (anchorClasses a) "author" = true →
        extract_links (l1 ++ a :: l2) base = extract_links (l1 ++ l2) base) := by
  constructor
  · intro classes hrefL labelL
    rfl
  · intro base l1 l2 a ha
    rw [extract_links, extract_links, List.foldl_append, List.foldl_append,
      List.foldl_cons, linkStep_author base _ a ha]

/-- C7 witness: the author-search anchor is dropped from a concrete anchor
list, and the classifier's chain agrees with the rule table on the plain
anchor's inputs. -/
theorem c7_witness :
    hasSub (anchorClasses c7AuthorAnchor) "author" = true ∧
      extract_links ([] ++ c7AuthorAnchor :: [c7PlainAnchor]) none =
        extract_links ([] ++ [c7PlainAnchor]) none ∧
      classify (anchorClasses c7PlainAnchor)
          (lowerStr "https://arxiv.org/abs/1234.5678") (lowerStr "paper page") =
        firstMatch linkRules (anchorClasses c7PlainAnchor)
          (lowerStr "https://arxiv.org/abs/1234.5678") (lowerStr "paper page") :=
  ⟨by decide,
    c7_link_classifier.2 none [] [c7PlainAnchor] c7AuthorAnchor (by decide),
    c7_link_classifier.1 _ _ _⟩

/-- C8: the claim describes a search for an authors-classed sibling detail
element, but the code's loop condition `... or not authors` is always true
at the first sibling (authors starts empty), so the first `dd` is always
used even when a later sibling carries the authors class.  At the failing
input the authors come from the "notes" sibling, not the "authors" one. -/
theorem c8_first_sibling_always_wins :
    hasSub (joinSp (DdTag.classes ⟨["authors"], "Jane Doe"⟩)) "authors" = true ∧
      split_authors "Jane Doe" = ["Jane Doe"] ∧
      ptitleLoop [] c8pt.dds =
        (["Alice Smith", "Bob Jones"], some ⟨["notes"], "Alice Smith, Bob Jones"⟩) ∧
      (ptitleEntry none c8pt).map Entry.authors = some ["Alice Smith", "Bob Jones"] := by
  refine ⟨by decide, by decide, by decide, by decide⟩

/-- C9: candidates are keyed by trimmed lower-cased title — all output
records have pairwise distinct normalized titles, and every candidate with
a non-empty normalized title is represented by exactly one output record
with that normalized title. -/
theorem c9_title_dedup (d : Doc) :
    (extract_papers d).Pairwise (fun a b => normKey a.title ≠ normKey b.title) ∧
      (∀ c ∈ candidatesOf d, normKey c.title ≠ "" →
        ∃ e ∈ extract_papers d, normKey e.title = normKey c.title) := by
  constructor
  · by_cases hagg : aggregate (candidatesOf d) = []
    · rw [extract_papers_fb d hagg]
      have hinv := fallbackScan_inv (docBase d) [] d.blocks
        ⟨List.nodup_nil, fun kv h => absurd h (List.not_mem_nil _)⟩
      have hpw := aggInv_values_pairwise entryCleanA _ hinv
      exact ((sortBy_perm titleLe _).pairwise_iff normKeyNe_symm).mpr hpw
    · rw [extract_papers_agg d hagg]
      have hinv := aggregate_inv entryCleanA merge_cleanA (candidatesOf d)
        (candidatesOf_cleanA d)
      have hpw := aggInv_values_pairwise entryCleanA _ hinv
      exact ((rankPapers_perm _).pairwise_iff normKeyNe_symm).mpr hpw
  · intro c hc hk
    have hkey : normKey c.title ∈ (aggregate (candidatesOf d)).map Prod.fst := by
      rw [aggregate] at *
      exact aggregate_has_key (candidatesOf d) [] c hc hk
    rcases List.mem_map.mp hkey with ⟨kv, hkv, hfst⟩
    have hagg : aggregate (candidatesOf d) ≠ [] := by
      intro h0
      rw [h0] at hkv
      exact absurd hkv (List.not_mem_nil _)
    have hinv := aggregate_inv entryCleanA merge_cleanA (candidatesOf d)
      (candidatesOf_cleanA d)
    refine ⟨kv.2, ?_, ?_⟩
    · rw [extract_papers_agg d hagg, (rankPapers_perm _).mem_iff]
      exact List.mem_map.mpr ⟨kv, hkv, rfl⟩
    · rw [(hinv.2 kv hkv).2.1, hfst]

/-- C9 witness: the two same-titled candidates of `c9doc` collapse to one
output record carrying their shared normalized title. -/
theorem c9_witness :
    c9cand ∈ candidatesOf c9doc ∧ normKey c9cand.title ≠ "" ∧
      (∃ e ∈ extract_papers c9doc, normKey e.title = normKey c9cand.title) ∧
      (extract_papers c9doc).length = 1 :=
  ⟨by decide, by decide, (c9_title_dedup c9doc).2 c9cand (by decide) (by decide),
    by decide⟩
